import Mathlib

/-!
# Shallow embedding of the cost-splitting expense tracker

This file embeds the aggregation and payment-batching logic of the
shared-expense web app (routes in `src/server.js` and the unnamed revision
`src/unnamed/part_001`) and proves properties of that logic.

Modelling conventions:
* An expense record (`Expense`) mirrors the JSON objects stored by the app:
  `cost` is a rational number standing for the JS number, timestamps are
  naturals standing for `Date.now()` millisecond values, and the two payment
  fields are `Option`s standing for `null`-able fields.
* Request bodies arrive as form-encoded strings.  JS truthiness of a string
  (`!person`) is emptiness; `parseFloat` is a platform primitive and is
  modelled by passing, next to the raw string, the value it parses to
  (`Option Rat`, `none` standing for `NaN`).
* `crypto.randomUUID()` and `Date.now()` are modelled by explicit supply
  parameters: operations that consume one value take it as an argument,
  the pay-by-person route of `part_001` calls both once per cohort record
  inside its `.map`, so it takes `Nat`-indexed supplies.
* JS `Array.prototype.sort` is stable; with a comparator that is a total
  preorder its result is the unique stable sort, modelled by
  `List.insertionSort` with the corresponding `≤`-style relation.
-/

namespace CostSplitting

/-- The `status` field of a record: the app only ever stores the strings
"unpaid" and "paid". -/
inductive Status where
  | unpaid : Status
  | paid : Status
deriving DecidableEq, Repr

/-- One expense record, as created by `POST /expenses` and stored in
`data.json`. -/
structure Expense where
  id : String
  person : String
  item : String
  cost : Rat
  status : Status
  addedTimestamp : Nat
  paidTimestamp : Option Nat
  paidBatchId : Option String
deriving DecidableEq, Repr

/-- The error kinds of the action surface (HTTP error responses of the
handlers; `invalidInput` is the validation redirect, `notFound` a 404,
`alreadyPaid` the 400 of `POST /mark-paid/item/:id`). -/
inductive ActionError where
  | invalidInput : ActionError
  | notFound : ActionError
  | alreadyPaid : ActionError
deriving DecidableEq, Repr

/-- Sum of the `cost` fields of a list of records. -/
def sumCosts (l : List Expense) : Rat :=
  (l.map Expense.cost).sum

/-- The JS primitive `String.prototype.trim`: drop whitespace from both ends
of the string (an executable model; Lean's own `String.trim` computes the
same string but does not reduce in the kernel). -/
def jsTrim (s : String) : String :=
  ⟨((s.data.dropWhile Char.isWhitespace).reverse.dropWhile Char.isWhitespace).reverse⟩

/-- Comparator relation of `items.sort((a, b) => a.addedTimestamp - b.addedTimestamp)`:
ascending by `addedTimestamp`. -/
def byAdded (a b : Expense) : Prop :=
  a.addedTimestamp ≤ b.addedTimestamp

instance : DecidableRel byAdded := fun a b => Nat.decLe a.addedTimestamp b.addedTimestamp

instance : IsTotal Expense byAdded := ⟨fun a b => Nat.le_total a.addedTimestamp b.addedTimestamp⟩

instance : IsTrans Expense byAdded := ⟨fun _ _ _ h h2 => Nat.le_trans h h2⟩

/-- The stable ascending-by-`addedTimestamp` sort applied to the records of a
group (`personData.items.sort(...)` / `batch.items.sort(...)`). -/
def sortByAdded (l : List Expense) : List Expense :=
  l.insertionSort byAdded

/-- `POST /expenses` (identical in `src/server.js` lines 58-91 and
`src/unnamed/part_001` lines 60-93).  Validation is
`!person || !item || !cost || isNaN(parseFloat(cost))`; on success the new
record is pushed at the end of the store.  `costVal` is what
`parseFloat(costStr)` evaluates to (`none` for `NaN`); `freshId` is the
`crypto.randomUUID()` result and `now` the `Date.now()` result. -/
def addExpense (expenses : List Expense) (person itemDesc costStr : String)
    (costVal : Option Rat) (freshId : String) (now : Nat) :
    Except ActionError (List Expense) :=
  match costVal with
  | none => Except.error ActionError.invalidInput
  | some c =>
    if person = "" ∨ itemDesc = "" ∨ costStr = "" then
      Except.error ActionError.invalidInput
    else
      Except.ok (expenses ++
        [{ id := freshId
           person := jsTrim person
           item := jsTrim itemDesc
           cost := c
           status := Status.unpaid
           addedTimestamp := now
           paidTimestamp := none
           paidBatchId := none }])

/-- Selection predicate of `POST /mark-paid/:username` in
`src/unnamed/part_001` line 132: `item.person === username && item.status !== 'paid'`. -/
def paySel (username : String) (e : Expense) : Bool :=
  decide (e.person = username ∧ e.status ≠ Status.paid)

/-- The per-record update of the `.map` in `POST /mark-paid/:username`
(`src/unnamed/part_001` lines 139-144).  `Date.now()` and
`crypto.randomUUID()` are called once per record, so the k-th selected
record receives `now k` and batch id built from `uuid k`. -/
def payUpdate (now : Nat → Nat) (uuid : Nat → String) (p : Nat × Expense) : Expense :=
  { p.2 with
    status := Status.paid
    paidTimestamp := some (now p.1)
    paidBatchId := some ("batch-" ++ uuid p.1) }

/-- `POST /mark-paid/:username` in `src/unnamed/part_001` lines 127-155:
filter the cohort, 404 when empty, otherwise map the payment update over the
cohort and re-assemble the store as (records outside the cohort) ++ (updated
cohort). -/
def markPaidPerson (expenses : List Expense) (username : String)
    (now : Nat → Nat) (uuid : Nat → String) : Except ActionError (List Expense) :=
  let itemsToMark := expenses.filter (paySel username)
  if itemsToMark.length = 0 then
    Except.error ActionError.notFound
  else
    let updatedItems := itemsToMark.enum.map (payUpdate now uuid)
    Except.ok (expenses.filter (fun e => ! paySel username e) ++ updatedItems)

/-- The store after a `POST /mark-paid/:username` request: on an error
response the handler returns before `writeExpenses`, so the store is
unchanged. -/
def applyMarkPaidPerson (expenses : List Expense) (username : String)
    (now : Nat → Nat) (uuid : Nat → String) : List Expense :=
  match markPaidPerson expenses username now uuid with
  | Except.error _ => expenses
  | Except.ok out => out

/-- The paid-copy spread `{...e, status: 'paid', paidTimestamp, paidBatchId}`
used by `POST /mark-paid/item/:id` (`src/server.js` lines 206-211) and by the
to-paid branch of the toggle route (`src/unnamed/part_001` lines 178-183). -/
def payItemUpd (now : Nat) (uuid : String) (e : Expense) : Expense :=
  { e with
    status := Status.paid
    paidTimestamp := some now
    paidBatchId := some ("batch-" ++ uuid) }

/-- The unpaid-copy spread of the to-unpaid branch of the toggle route
(`src/unnamed/part_001` lines 171-176). -/
def toggleClear (e : Expense) : Expense :=
  { e with
    status := Status.unpaid
    paidTimestamp := none
    paidBatchId := none }

/-- `POST /mark-paid/item/:id` in `src/server.js` lines 189-219: find the
first record with the given id (404 when absent), reject when it is already
paid, otherwise replace it in place with the paid copy.  `now` and `uuid`
are the single `Date.now()` / `crypto.randomUUID()` calls hoisted before the
lookup. -/
def markPaidItem : List Expense → String → Nat → String → Except ActionError (List Expense)
  | [], _, _, _ => Except.error ActionError.notFound
  | e :: rest, eid, now, uuid =>
    if e.id = eid then
      if e.status = Status.paid then
        Except.error ActionError.alreadyPaid
      else
        Except.ok (payItemUpd now uuid e :: rest)
    else
      match markPaidItem rest eid now uuid with
      | Except.error err => Except.error err
      | Except.ok rest2 => Except.ok (e :: rest2)

/-- The store after a `POST /mark-paid/item/:id` request (unchanged on an
error response). -/
def applyMarkPaidItem (expenses : List Expense) (eid : String) (now : Nat)
    (uuid : String) : List Expense :=
  match markPaidItem expenses eid now uuid with
  | Except.error _ => expenses
  | Except.ok out => out

/-- `POST /expenses/:id/toggle-paid` in `src/unnamed/part_001` lines
158-191: find the first record with the given id (404 when absent); a paid
record becomes unpaid with both payment fields nulled, an unpaid record
becomes paid with a fresh singleton batch id and timestamp. -/
def togglePaid : List Expense → String → Nat → String → Except ActionError (List Expense)
  | [], _, _, _ => Except.error ActionError.notFound
  | e :: rest, eid, now, uuid =>
    if e.id = eid then
      if e.status = Status.paid then
        Except.ok (toggleClear e :: rest)
      else
        Except.ok (payItemUpd now uuid e :: rest)
    else
      match togglePaid rest eid now uuid with
      | Except.error err => Except.error err
      | Except.ok rest2 => Except.ok (e :: rest2)

/-- `DELETE /expenses/:id` (both revisions): filter the id out, 404 when the
length did not shrink. -/
def deleteExpense (expenses : List Expense) (eid : String) :
    Except ActionError (List Expense) :=
  let filtered := expenses.filter (fun e => decide (e.id ≠ eid))
  if filtered.length = expenses.length then
    Except.error ActionError.notFound
  else
    Except.ok filtered

/-- The edited-copy spread `{...expenses[expenseIndex], person: person.trim(),
item: item.trim(), cost: parseFloat(cost)}` of `src/unnamed/part_001` lines
286-291 (identically `src/server.js` lines 156-161). -/
def editUpd (p itm : String) (c : Rat) (e : Expense) : Expense :=
  { e with
    person := jsTrim p
    item := jsTrim itm
    cost := c }

/-- Replacement step of the edit route: replace the first record with the
given id by a copy whose `person`, `item`, `cost` are overwritten; 404 when
the id is absent. -/
def editAt : List Expense → String → String → String → Rat → Except ActionError (List Expense)
  | [], _, _, _, _ => Except.error ActionError.notFound
  | e :: rest, eid, p, itm, c =>
    if e.id = eid then
      Except.ok (editUpd p itm c e :: rest)
    else
      match editAt rest eid p itm c with
      | Except.error err => Except.error err
      | Except.ok rest2 => Except.ok (e :: rest2)

/-- `POST /expenses/:id` (edit) in `src/unnamed/part_001` lines 268-298:
the same `!person || !item || !cost || isNaN(parseFloat(cost))` validation
as the add route, then find-and-replace by id. -/
def updateExpense (expenses : List Expense) (eid person itemDesc costStr : String)
    (costVal : Option Rat) : Except ActionError (List Expense) :=
  match costVal with
  | none => Except.error ActionError.invalidInput
  | some c =>
    if person = "" ∨ itemDesc = "" ∨ costStr = "" then
      Except.error ActionError.invalidInput
    else
      editAt expenses eid person itemDesc c

/-- The data-model invariant of §3 of the spec: `paidTimestamp` and
`paidBatchId` are both null or both non-null on every record. -/
def PayInv (expenses : List Expense) : Prop :=
  ∀ e ∈ expenses, e.paidTimestamp.isSome = e.paidBatchId.isSome

/-- One value of the `reportData` object of `GET /report`: the per-person
accumulator `{ items: [], total: 0 }`. -/
structure PersonGroup where
  items : List Expense
  total : Rat
deriving DecidableEq, Repr

/-- One step of the `unpaidExpenses.forEach` loop of `GET /report`
(`src/server.js` lines 100-106): a JS object keyed by person string in
insertion order, modelled as an association list; the first record of a new
person appends a fresh group at the end, later records push onto the
existing group and add to its total. -/
def reportInsert : List (String × PersonGroup) → Expense → List (String × PersonGroup)
  | [], e => [(e.person, ⟨[e], e.cost⟩)]
  | (q, g) :: rest, e =>
    if q = e.person then
      (q, ⟨g.items ++ [e], g.total + e.cost⟩) :: rest
    else
      (q, g) :: reportInsert rest e

/-- JS property lookup `reportData[person]` on the association list. -/
def findGroup (p : String) : List (String × PersonGroup) → Option PersonGroup
  | [] => none
  | (q, g) :: rest => if q = p then some g else findGroup p rest

/-- The `reportData` object before the per-group sorting pass. -/
def reportRaw (expenses : List Expense) : List (String × PersonGroup) :=
  (expenses.filter fun e => decide (e.status = Status.unpaid)).foldl reportInsert []

/-- `GET /report` (`src/server.js` lines 94-121): filter unpaid records,
group them by person accumulating the cost total, then sort each group's
items ascending by `addedTimestamp` (stable JS sort). -/
def report (expenses : List Expense) : List (String × PersonGroup) :=
  (reportRaw expenses).map fun pg => (pg.1, ⟨sortByAdded pg.2.items, pg.2.total⟩)

/-- One value of the `historyBatches` object of `GET /history`: person and
timestamp are adopted from the first record seen for the batch id. -/
structure BatchEntry where
  person : String
  timestamp : Option Nat
  batchId : String
  items : List Expense
  total : Rat
deriving DecidableEq, Repr

/-- Insertion of one paid record (whose `paidBatchId` is the non-null
`bid`) into the `historyBatches` association list (`src/server.js` lines
228-243). -/
def historyInsert : List BatchEntry → String → Expense → List BatchEntry
  | [], bid, e => [⟨e.person, e.paidTimestamp, bid, [e], e.cost⟩]
  | b :: rest, bid, e =>
    if b.batchId = bid then
      { b with items := b.items ++ [e], total := b.total + e.cost } :: rest
    else
      b :: historyInsert rest bid e

/-- One step of the `paidExpenses.forEach` loop: a record with a null
`paidBatchId` is skipped (`if (!expense.paidBatchId) return;`). -/
def historyStep (acc : List BatchEntry) (e : Expense) : List BatchEntry :=
  match e.paidBatchId with
  | none => acc
  | some bid => historyInsert acc bid e

/-- Lookup `historyBatches[bid]` on the association list. -/
def findBatch (bid : String) : List BatchEntry → Option BatchEntry
  | [] => none
  | b :: rest => if b.batchId = bid then some b else findBatch bid rest

/-- The `historyBatches` object before sorting. -/
def historyRaw (expenses : List Expense) : List BatchEntry :=
  (expenses.filter fun e => decide (e.status = Status.paid)).foldl historyStep []

/-- The numeric value the sort comparator reads from an entry.  Records
written by this app always carry a timestamp when they carry a batch id
(the §3 invariant), in which case this is exactly that timestamp; the
theorems about ordering assume that invariant. -/
def tsNum (b : BatchEntry) : Nat :=
  b.timestamp.getD 0

/-- Comparator relation of `sort((a, b) => b.timestamp - a.timestamp)`:
descending by payment timestamp. -/
def descTs (a b : BatchEntry) : Prop :=
  tsNum b ≤ tsNum a

instance : DecidableRel descTs := fun a b => Nat.decLe (tsNum b) (tsNum a)

instance : IsTotal BatchEntry descTs := ⟨fun a b => Nat.le_total (tsNum b) (tsNum a)⟩

instance : IsTrans BatchEntry descTs := ⟨fun _ _ _ h h2 => Nat.le_trans h2 h⟩

/-- The per-entry item-sorting pass `batch.items.sort(...)`. -/
def sortEntryItems (b : BatchEntry) : BatchEntry :=
  { b with items := sortByAdded b.items }

/-- `GET /history` (`src/server.js` lines 222-256): group paid records with
a non-null batch id by that id, sort the entries descending by timestamp
(stable JS sort), then sort each entry's items ascending by
`addedTimestamp`. -/
def history (expenses : List Expense) : List BatchEntry :=
  ((historyRaw expenses).insertionSort descTs).map sortEntryItems

/-! ## Theorems -/

/-- C1: the claim says all N newly-paid records of a pay-by-person action
share one single batch identifier and one single paidTimestamp.  The code of
`POST /mark-paid/:username` calls `crypto.randomUUID()` (and `Date.now()`)
once per cohort record inside the `.map`, so with two unpaid records for
person "A" and a collision-free uuid supply the two newly-paid records carry
the distinct batch ids "batch-0" and "batch-1": the cohort does not share a
single batch identifier. -/
theorem C1_pay_by_person_batch_ids_not_shared :
    markPaidPerson
      [⟨"i1", "A", "x", 1, Status.unpaid, 5, none, none⟩,
       ⟨"i2", "A", "y", 2, Status.unpaid, 3, none, none⟩] "A"
      (fun _ => 100) (fun k => toString k) =
      Except.ok
        [⟨"i1", "A", "x", 1, Status.paid, 5, some 100, some "batch-0"⟩,
         ⟨"i2", "A", "y", 2, Status.paid, 3, some 100, some "batch-1"⟩] ∧
    ("batch-0" : String) ≠ "batch-1" := by
  exact ⟨by rfl, by decide⟩

/-- C2 counterexample: the claim says the add action fails with
`InvalidInput` unless the cost parses as a positive finite number.  The
code's validation is only `!person || !item || !cost || isNaN(parseFloat(cost))`,
so the input {person: "A", item: "B", cost: "-5"} (where `parseFloat("-5")`
is the negative number -5) is accepted and the record stored with cost -5,
although -5 is not positive. -/
theorem C2_negative_cost_accepted :
    addExpense [] "A" "B" "-5" (some (-5)) "id0" 7 =
      Except.ok [⟨"id0", "A", "B", -5, Status.unpaid, 7, none, none⟩] ∧
    ¬ (0 : Rat) < -5 := by
  exact ⟨by rfl, by decide⟩

/-- C2 (amended): the add action fails with `InvalidInput` unless `person`,
`item` and the raw `cost` string are non-empty and `parseFloat(cost)` is not
`NaN`; on success it appends exactly one new record carrying the fresh id,
the trimmed person and item, the parsed cost, status unpaid, the creation
timestamp, and both payment fields null, leaving all pre-existing records
unchanged. -/
theorem C2_add_validates_and_appends (expenses : List Expense)
    (person itemDesc costStr : String) (costVal : Option Rat)
    (freshId : String) (now : Nat) :
    ((person = "" ∨ itemDesc = "" ∨ costStr = "" ∨ costVal = none) →
      addExpense expenses person itemDesc costStr costVal freshId now =
        Except.error ActionError.invalidInput) ∧
    (∀ c, costVal = some c → person ≠ "" → itemDesc ≠ "" → costStr ≠ "" →
      addExpense expenses person itemDesc costStr costVal freshId now =
        Except.ok (expenses ++
          [⟨freshId, jsTrim person, jsTrim itemDesc, c, Status.unpaid, now, none, none⟩])) := by
  refine ⟨fun h => ?_, fun c hc hp hi hcs => ?_⟩
  · rcases costVal with _ | c
    · rfl
    · rcases h with h | h | h | h
      · simp [addExpense, h]
      · simp [addExpense, h]
      · simp [addExpense, h]
      · exact absurd h (by simp)
  · subst hc
    simp [addExpense, hp, hi, hcs]

/-- C2 witness: concrete successful add. -/
theorem C2_add_witness :
    addExpense [] "A" "B" "2" (some 2) "id0" 7 =
      Except.ok [⟨"id0", "A", "B", 2, Status.unpaid, 7, none, none⟩] := by
  exact (C2_add_validates_and_appends [] "A" "B" "2" (some 2) "id0" 7).2 2 rfl
    (by decide) (by decide) (by decide)

/-- C7: pay-by-person for a person all of whose records are paid (which
covers names absent from the store) responds 404 `NotFound` before
`writeExpenses` is reached, so the store is field-for-field unchanged. -/
theorem C7_pay_by_person_empty_selection (expenses : List Expense)
    (username : String) (now : Nat → Nat) (uuid : Nat → String)
    (h : ∀ e ∈ expenses, e.person = username → e.status = Status.paid) :
    markPaidPerson expenses username now uuid = Except.error ActionError.notFound ∧
    applyMarkPaidPerson expenses username now uuid = expenses := by
  have hf : expenses.filter (paySel username) = [] := by
    rw [List.filter_eq_nil_iff]
    intro e he
    simp only [paySel, decide_eq_true_eq, not_and, ne_eq, not_not]
    exact h e he
  have h1 : markPaidPerson expenses username now uuid =
      Except.error ActionError.notFound := by
    simp [markPaidPerson, hf]
  exact ⟨h1, by simp [applyMarkPaidPerson, h1]⟩

/-- `POST /mark-paid/item/:id` on a store without the id: `findIndex`
returns -1 and the handler responds 404. -/
theorem markPaidItem_not_found (eid : String) (now : Nat) (uuid : String) :
    ∀ l : List Expense, (∀ e ∈ l, e.id ≠ eid) →
      markPaidItem l eid now uuid = Except.error ActionError.notFound
  | [], _ => rfl
  | e :: rest, h => by
    have he : ¬ e.id = eid := h e (by simp)
    have ih := markPaidItem_not_found eid now uuid rest fun x hx => h x (by simp [hx])
    simp [markPaidItem, he, ih]

/-- `POST /mark-paid/item/:id` on a store containing the id: the first
record with that id is examined; an already-paid record yields the 400
response, otherwise only that record is replaced by its paid copy. -/
theorem markPaidItem_found (eid : String) (now : Nat) (uuid : String)
    (e : Expense) (post : List Expense) (he : e.id = eid) :
    ∀ pre : List Expense, (∀ x ∈ pre, x.id ≠ eid) →
      markPaidItem (pre ++ e :: post) eid now uuid =
        if e.status = Status.paid then Except.error ActionError.alreadyPaid
        else Except.ok (pre ++ payItemUpd now uuid e :: post)
  | [], _ => by
    by_cases hs : e.status = Status.paid <;> simp [markPaidItem, he, hs]
  | x :: pre, h => by
    have hx : ¬ x.id = eid := h x (by simp)
    have ih := markPaidItem_found eid now uuid e post he pre fun y hy => h y (by simp [hy])
    by_cases hs : e.status = Status.paid <;> simp [markPaidItem, hx, ih, hs]

/-- C5: pay-by-item fails with `NotFound` when no record has the id and
with `AlreadyPaid` when the (first) record with the id is already paid, and
on either failure the handler returns before `writeExpenses`, leaving the
store unchanged; on success exactly the one found record is replaced by a
copy on which only `status`, `paidTimestamp` and the freshly generated
`paidBatchId` are set, and (the uuid being collision-free) that batch id is
a singleton: it occurs on exactly that one record of the new store. -/
theorem C5_pay_by_item_cases (expenses : List Expense) (eid : String)
    (now : Nat) (uuid : String) :
    ((∀ e ∈ expenses, e.id ≠ eid) →
      markPaidItem expenses eid now uuid = Except.error ActionError.notFound ∧
      applyMarkPaidItem expenses eid now uuid = expenses) ∧
    (∀ pre e post, expenses = pre ++ e :: post →
      (∀ x ∈ pre, x.id ≠ eid) → e.id = eid →
      (e.status = Status.paid →
        markPaidItem expenses eid now uuid = Except.error ActionError.alreadyPaid ∧
        applyMarkPaidItem expenses eid now uuid = expenses) ∧
      (e.status = Status.unpaid →
        markPaidItem expenses eid now uuid =
          Except.ok (pre ++ payItemUpd now uuid e :: post) ∧
        ((∀ x ∈ expenses, x.paidBatchId ≠ some ("batch-" ++ uuid)) →
          (pre ++ payItemUpd now uuid e :: post).filter
              (fun x => decide (x.paidBatchId = some ("batch-" ++ uuid))) =
            [payItemUpd now uuid e]))) := by
  constructor
  · intro h
    have h1 := markPaidItem_not_found eid now uuid expenses h
    exact ⟨h1, by simp [applyMarkPaidItem, h1]⟩
  · intro pre e post hsplit hpre he
    subst hsplit
    have hfound := markPaidItem_found eid now uuid e post he pre hpre
    constructor
    · intro hs
      rw [if_pos hs] at hfound
      exact ⟨hfound, by simp [applyMarkPaidItem, hfound]⟩
    · intro hs
      have hs2 : ¬ e.status = Status.paid := by rw [hs]; exact fun hcon => by cases hcon
      rw [if_neg hs2] at hfound
      refine ⟨hfound, fun hfresh => ?_⟩
      have hpre2 : pre.filter
          (fun x => decide (x.paidBatchId = some ("batch-" ++ uuid))) = [] := by
        rw [List.filter_eq_nil_iff]
        intro x hx
        simpa using hfresh x (List.mem_append_left _ hx)
      have hpost2 : post.filter
          (fun x => decide (x.paidBatchId = some ("batch-" ++ uuid))) = [] := by
        rw [List.filter_eq_nil_iff]
        intro x hx
        simpa using hfresh x (List.mem_append_right _ (List.mem_cons_of_mem _ hx))
      simp [List.filter_append, hpre2, hpost2, payItemUpd]

/-- C5 witness: 404 on an id absent from a one-record store, 400 on a paid
record, and success on an unpaid record. -/
theorem C5_pay_by_item_cases_witness :
    markPaidItem [⟨"i1", "A", "x", 1, Status.unpaid, 5, none, none⟩] "nope" 9 "u" =
      Except.error ActionError.notFound ∧
    markPaidItem [⟨"i1", "A", "x", 1, Status.unpaid, 5, none, none⟩] "i1" 9 "u" =
      Except.ok [⟨"i1", "A", "x", 1, Status.paid, 5, some 9, some "batch-u"⟩] := by
  constructor
  · exact ((C5_pay_by_item_cases
      [⟨"i1", "A", "x", 1, Status.unpaid, 5, none, none⟩] "nope" 9 "u").1 (by decide)).1
  · exact (((C5_pay_by_item_cases
      [⟨"i1", "A", "x", 1, Status.unpaid, 5, none, none⟩] "i1" 9 "u").2
      [] ⟨"i1", "A", "x", 1, Status.unpaid, 5, none, none⟩ [] rfl (by simp) rfl).2 rfl).1

/-- `POST /expenses/:id/toggle-paid` on a store without the id responds
404. -/
theorem togglePaid_not_found (eid : String) (now : Nat) (uuid : String) :
    ∀ l : List Expense, (∀ e ∈ l, e.id ≠ eid) →
      togglePaid l eid now uuid = Except.error ActionError.notFound
  | [], _ => rfl
  | e :: rest, h => by
    have he : ¬ e.id = eid := h e (by simp)
    have ih := togglePaid_not_found eid now uuid rest fun x hx => h x (by simp [hx])
    simp [togglePaid, he, ih]

/-- `POST /expenses/:id/toggle-paid` on a store containing the id: only the
first record with that id is replaced, by its cleared copy when it was paid
and by its paid copy otherwise. -/
theorem togglePaid_found (eid : String) (now : Nat) (uuid : String)
    (e : Expense) (post : List Expense) (he : e.id = eid) :
    ∀ pre : List Expense, (∀ x ∈ pre, x.id ≠ eid) →
      togglePaid (pre ++ e :: post) eid now uuid =
        if e.status = Status.paid then Except.ok (pre ++ toggleClear e :: post)
        else Except.ok (pre ++ payItemUpd now uuid e :: post)
  | [], _ => by
    by_cases hs : e.status = Status.paid <;> simp [togglePaid, he, hs]
  | x :: pre, h => by
    have hx : ¬ x.id = eid := h x (by simp)
    have ih := togglePaid_found eid now uuid e post he pre fun y hy => h y (by simp [hy])
    by_cases hs : e.status = Status.paid <;> simp [togglePaid, hx, ih, hs]

/-- C6: the toggle action fails with `NotFound` when no record has the id;
otherwise it flips exactly the (first) record with that id: a paid record
becomes unpaid with both `paidTimestamp` and `paidBatchId` nulled, an
unpaid record becomes paid with the freshly generated singleton batch id
and the new timestamp; every other record is unchanged. -/
theorem C6_toggle_cases (expenses : List Expense) (eid : String)
    (now : Nat) (uuid : String) :
    ((∀ e ∈ expenses, e.id ≠ eid) →
      togglePaid expenses eid now uuid = Except.error ActionError.notFound) ∧
    (∀ pre e post, expenses = pre ++ e :: post →
      (∀ x ∈ pre, x.id ≠ eid) → e.id = eid →
      (e.status = Status.paid →
        togglePaid expenses eid now uuid = Except.ok (pre ++ toggleClear e :: post)) ∧
      (e.status = Status.unpaid →
        togglePaid expenses eid now uuid =
          Except.ok (pre ++ payItemUpd now uuid e :: post) ∧
        ((∀ x ∈ expenses, x.paidBatchId ≠ some ("batch-" ++ uuid)) →
          (pre ++ payItemUpd now uuid e :: post).filter
              (fun x => decide (x.paidBatchId = some ("batch-" ++ uuid))) =
            [payItemUpd now uuid e]))) := by
  constructor
  · exact togglePaid_not_found eid now uuid expenses
  · intro pre e post hsplit hpre he
    subst hsplit
    have hfound := togglePaid_found eid now uuid e post he pre hpre
    constructor
    · intro hs
      rwa [if_pos hs] at hfound
    · intro hs
      have hs2 : ¬ e.status = Status.paid := by rw [hs]; exact fun hcon => by cases hcon
      rw [if_neg hs2] at hfound
      refine ⟨hfound, fun hfresh => ?_⟩
      have hpre2 : pre.filter
          (fun x => decide (x.paidBatchId = some ("batch-" ++ uuid))) = [] := by
        rw [List.filter_eq_nil_iff]
        intro x hx
        simpa using hfresh x (List.mem_append_left _ hx)
      have hpost2 : post.filter
          (fun x => decide (x.paidBatchId = some ("batch-" ++ uuid))) = [] := by
        rw [List.filter_eq_nil_iff]
        intro x hx
        simpa using hfresh x (List.mem_append_right _ (List.mem_cons_of_mem _ hx))
      simp [List.filter_append, hpre2, hpost2, payItemUpd]

/-- C6 witness: toggling a paid record clears both payment fields; toggling
it back on sets fresh ones. -/
theorem C6_toggle_cases_witness :
    togglePaid [⟨"i3", "B", "z", 4, Status.paid, 1, some 9, some "batch-q"⟩] "i3" 50 "u" =
      Except.ok [⟨"i3", "B", "z", 4, Status.unpaid, 1, none, none⟩] ∧
    togglePaid [⟨"i3", "B", "z", 4, Status.unpaid, 1, none, none⟩] "i3" 50 "u" =
      Except.ok [⟨"i3", "B", "z", 4, Status.paid, 1, some 50, some "batch-u"⟩] := by
  constructor
  · exact ((C6_toggle_cases
      [⟨"i3", "B", "z", 4, Status.paid, 1, some 9, some "batch-q"⟩] "i3" 50 "u").2
      [] ⟨"i3", "B", "z", 4, Status.paid, 1, some 9, some "batch-q"⟩ [] rfl (by simp) rfl).1 rfl
  · exact (((C6_toggle_cases
      [⟨"i3", "B", "z", 4, Status.unpaid, 1, none, none⟩] "i3" 50 "u").2
      [] ⟨"i3", "B", "z", 4, Status.unpaid, 1, none, none⟩ [] rfl (by simp) rfl).2 rfl).1

/-- The edit route on a store without the id responds 404. -/
theorem editAt_not_found (eid p itm : String) (c : Rat) :
    ∀ l : List Expense, (∀ e ∈ l, e.id ≠ eid) →
      editAt l eid p itm c = Except.error ActionError.notFound
  | [], _ => rfl
  | e :: rest, h => by
    have he : ¬ e.id = eid := h e (by simp)
    have ih := editAt_not_found eid p itm c rest fun x hx => h x (by simp [hx])
    simp [editAt, he, ih]

/-- The edit route on a store containing the id replaces exactly the first
record with that id by its edited copy. -/
theorem editAt_found (eid p itm : String) (c : Rat) (e : Expense)
    (post : List Expense) (he : e.id = eid) :
    ∀ pre : List Expense, (∀ x ∈ pre, x.id ≠ eid) →
      editAt (pre ++ e :: post) eid p itm c =
        Except.ok (pre ++ editUpd p itm c e :: post)
  | [], _ => by simp [editAt, he]
  | x :: pre, h => by
    have hx : ¬ x.id = eid := h x (by simp)
    have ih := editAt_found eid p itm c e post he pre fun y hy => h y (by simp [hy])
    simp [editAt, hx, ih]

/-- C8: the edit action (`POST /expenses/:id` of `src/unnamed/part_001`)
fails with `InvalidInput` when the validation of the new fields fails (the
validation runs first, so it also wins when the id is additionally absent);
with the validation passing it fails with `NotFound` when no record has the
id, and on success it replaces exactly the found record by a copy on which
only `person`, `item` and `cost` are overwritten: `id`, `status`,
`addedTimestamp`, `paidTimestamp` and `paidBatchId` of that record, and
every other record, are identical before and after. -/
theorem C8_edit_frame (expenses : List Expense)
    (eid person itemDesc costStr : String) (costVal : Option Rat) :
    ((person = "" ∨ itemDesc = "" ∨ costStr = "" ∨ costVal = none) →
      updateExpense expenses eid person itemDesc costStr costVal =
        Except.error ActionError.invalidInput) ∧
    (∀ c, costVal = some c → person ≠ "" → itemDesc ≠ "" → costStr ≠ "" →
      ((∀ e ∈ expenses, e.id ≠ eid) →
        updateExpense expenses eid person itemDesc costStr costVal =
          Except.error ActionError.notFound) ∧
      (∀ pre e post, expenses = pre ++ e :: post →
        (∀ x ∈ pre, x.id ≠ eid) → e.id = eid →
        updateExpense expenses eid person itemDesc costStr costVal =
          Except.ok (pre ++ editUpd person itemDesc c e :: post) ∧
        (editUpd person itemDesc c e).id = e.id ∧
        (editUpd person itemDesc c e).status = e.status ∧
        (editUpd person itemDesc c e).addedTimestamp = e.addedTimestamp ∧
        (editUpd person itemDesc c e).paidTimestamp = e.paidTimestamp ∧
        (editUpd person itemDesc c e).paidBatchId = e.paidBatchId)) := by
  constructor
  · intro h
    rcases costVal with _ | c
    · rfl
    · rcases h with h | h | h | h
      · simp [updateExpense, h]
      · simp [updateExpense, h]
      · simp [updateExpense, h]
      · exact absurd h (by simp)
  · intro c hc hp hi hcs
    subst hc
    have hval : updateExpense expenses eid person itemDesc costStr (some c) =
        editAt expenses eid person itemDesc c := by
      simp [updateExpense, hp, hi, hcs]
    constructor
    · intro h
      rw [hval]
      exact editAt_not_found eid person itemDesc c expenses h
    · intro pre e post hsplit hpre he
      subst hsplit
      rw [hval]
      exact ⟨editAt_found eid person itemDesc c e post he pre hpre,
        rfl, rfl, rfl, rfl, rfl⟩

/-- C8 witness: a concrete successful edit overwrites person, item and cost
of the addressed record and nothing else. -/
theorem C8_edit_frame_witness :
    updateExpense
        [⟨"i1", "A", "x", 1, Status.unpaid, 5, none, none⟩,
         ⟨"i2", "A", "y", 2, Status.unpaid, 3, none, none⟩]
        "i2" "C" " D " "9" (some 9) =
      Except.ok
        [⟨"i1", "A", "x", 1, Status.unpaid, 5, none, none⟩,
         ⟨"i2", "C", "D", 9, Status.unpaid, 3, none, none⟩] := by
  exact (((C8_edit_frame
      [⟨"i1", "A", "x", 1, Status.unpaid, 5, none, none⟩,
       ⟨"i2", "A", "y", 2, Status.unpaid, 3, none, none⟩]
      "i2" "C" " D " "9" (some 9)).2 9 rfl (by decide) (by decide) (by decide)).2
      [⟨"i1", "A", "x", 1, Status.unpaid, 5, none, none⟩]
      ⟨"i2", "A", "y", 2, Status.unpaid, 3, none, none⟩ [] rfl (by decide) rfl).1

/-- The identities of the updated cohort records are the identities of the
selected records: the `.map` update rewrites only payment fields. -/
theorem enumPayUpdate_map_id (now : Nat → Nat) (uuid : Nat → String)
    (l : List Expense) :
    (l.enum.map (payUpdate now uuid)).map Expense.id = l.map Expense.id := by
  rw [List.map_map]
  have h : (Expense.id ∘ payUpdate now uuid) = (Expense.id ∘ Prod.snd) := rfl
  rw [h, ← List.map_map, List.enum_map_snd]

/-- C10: a successful pay-by-person re-assembles the stored sequence as
(records outside the cohort, in their original relative order) followed by
(the cohort's updated records, in the cohort's original relative order): the
cohort is removed from its original positions and appended at the end. -/
theorem C10_pay_by_person_reorders (expenses : List Expense)
    (username : String) (now : Nat → Nat) (uuid : Nat → String)
    (h : expenses.filter (paySel username) ≠ []) :
    markPaidPerson expenses username now uuid =
      Except.ok ((expenses.filter fun e => ! paySel username e) ++
        ((expenses.filter (paySel username)).enum.map (payUpdate now uuid))) ∧
    (applyMarkPaidPerson expenses username now uuid).map Expense.id =
      ((expenses.filter fun e => ! paySel username e).map Expense.id) ++
        ((expenses.filter (paySel username)).map Expense.id) := by
  have hlen : ¬ (expenses.filter (paySel username)).length = 0 := by
    simpa [List.length_eq_zero] using h
  have h1 : markPaidPerson expenses username now uuid =
      Except.ok ((expenses.filter fun e => ! paySel username e) ++
        ((expenses.filter (paySel username)).enum.map (payUpdate now uuid))) := by
    simp [markPaidPerson, hlen]
  refine ⟨h1, ?_⟩
  simp only [applyMarkPaidPerson, h1, List.map_append]
  rw [enumPayUpdate_map_id]

/-- C10 witness: the cohort of person "A" (positions 0 and 2) is appended
after the unaffected "B" record. -/
theorem C10_pay_by_person_reorders_witness :
    markPaidPerson
        [⟨"i1", "A", "x", 1, Status.unpaid, 5, none, none⟩,
         ⟨"ib", "B", "w", 3, Status.unpaid, 2, none, none⟩,
         ⟨"i2", "A", "y", 2, Status.unpaid, 3, none, none⟩] "A"
        (fun _ => 100) (fun k => toString k) =
      Except.ok
        [⟨"ib", "B", "w", 3, Status.unpaid, 2, none, none⟩,
         ⟨"i1", "A", "x", 1, Status.paid, 5, some 100, some "batch-0"⟩,
         ⟨"i2", "A", "y", 2, Status.paid, 3, some 100, some "batch-1"⟩] ∧
    (applyMarkPaidPerson
        [⟨"i1", "A", "x", 1, Status.unpaid, 5, none, none⟩,
         ⟨"ib", "B", "w", 3, Status.unpaid, 2, none, none⟩,
         ⟨"i2", "A", "y", 2, Status.unpaid, 3, none, none⟩] "A"
        (fun _ => 100) (fun k => toString k)).map Expense.id =
      ["ib", "i1", "i2"] := by
  exact C10_pay_by_person_reorders
    [⟨"i1", "A", "x", 1, Status.unpaid, 5, none, none⟩,
     ⟨"ib", "B", "w", 3, Status.unpaid, 2, none, none⟩,
     ⟨"i2", "A", "y", 2, Status.unpaid, 3, none, none⟩] "A"
    (fun _ => 100) (fun k => toString k) (by decide)

/-- The edit route rewrites only person, item, cost, so it preserves the
payment-fields invariant. -/
theorem editAt_payInv (eid p itm : String) (c : Rat) :
    ∀ l out, PayInv l → editAt l eid p itm c = Except.ok out → PayInv out
  | [], _, _, h => by cases h
  | e :: rest, out, hinv, h => by
    by_cases he : e.id = eid
    · simp only [editAt, if_pos he] at h
      cases h
      intro x hx
      rcases List.mem_cons.mp hx with hx | hx
      · subst hx
        exact hinv e (by simp)
      · exact hinv x (by simp [hx])
    · cases hrec : editAt rest eid p itm c with
      | error err => simp [editAt, he, hrec] at h
      | ok rest2 =>
        have ih := editAt_payInv eid p itm c rest rest2
          (fun x hx => hinv x (by simp [hx])) hrec
        simp only [editAt, if_neg he, hrec] at h
        cases h
        intro x hx
        rcases List.mem_cons.mp hx with hx | hx
        · exact hinv x (by simp [hx])
        · exact ih x hx

/-- Pay-by-item sets both payment fields together, so it preserves the
payment-fields invariant. -/
theorem markPaidItem_payInv (eid : String) (now : Nat) (uuid : String) :
    ∀ l out, PayInv l → markPaidItem l eid now uuid = Except.ok out → PayInv out
  | [], _, _, h => by cases h
  | e :: rest, out, hinv, h => by
    by_cases he : e.id = eid
    · by_cases hs : e.status = Status.paid
      · simp [markPaidItem, he, hs] at h
      · simp only [markPaidItem, if_pos he, if_neg hs] at h
        cases h
        intro x hx
        rcases List.mem_cons.mp hx with hx | hx
        · subst hx
          rfl
        · exact hinv x (by simp [hx])
    · cases hrec : markPaidItem rest eid now uuid with
      | error err => simp [markPaidItem, he, hrec] at h
      | ok rest2 =>
        have ih := markPaidItem_payInv eid now uuid rest rest2
          (fun x hx => hinv x (by simp [hx])) hrec
        simp only [markPaidItem, if_neg he, hrec] at h
        cases h
        intro x hx
        rcases List.mem_cons.mp hx with hx | hx
        · exact hinv x (by simp [hx])
        · exact ih x hx

/-- The toggle route either nulls both payment fields or sets both, so it
preserves the payment-fields invariant. -/
theorem togglePaid_payInv (eid : String) (now : Nat) (uuid : String) :
    ∀ l out, PayInv l → togglePaid l eid now uuid = Except.ok out → PayInv out
  | [], _, _, h => by cases h
  | e :: rest, out, hinv, h => by
    by_cases he : e.id = eid
    · by_cases hs : e.status = Status.paid
      · simp only [togglePaid, if_pos he, if_pos hs] at h
        cases h
        intro x hx
        rcases List.mem_cons.mp hx with hx | hx
        · subst hx
          rfl
        · exact hinv x (by simp [hx])
      · simp only [togglePaid, if_pos he, if_neg hs] at h
        cases h
        intro x hx
        rcases List.mem_cons.mp hx with hx | hx
        · subst hx
          rfl
        · exact hinv x (by simp [hx])
    · cases hrec : togglePaid rest eid now uuid with
      | error err => simp [togglePaid, he, hrec] at h
      | ok rest2 =>
        have ih := togglePaid_payInv eid now uuid rest rest2
          (fun x hx => hinv x (by simp [hx])) hrec
        simp only [togglePaid, if_neg he, hrec] at h
        cases h
        intro x hx
        rcases List.mem_cons.mp hx with hx | hx
        · exact hinv x (by simp [hx])
        · exact ih x hx

/-- C9: every mutating operation — add, edit, delete, pay-by-person,
pay-by-item, toggle — preserves the invariant that `paidTimestamp` and
`paidBatchId` are both null or both non-null on every record of the
resulting store. -/
theorem C9_operations_preserve_payment_invariant (expenses : List Expense)
    (hinv : PayInv expenses) :
    (∀ person itemDesc costStr costVal freshId now out,
      addExpense expenses person itemDesc costStr costVal freshId now =
        Except.ok out → PayInv out) ∧
    (∀ eid person itemDesc costStr costVal out,
      updateExpense expenses eid person itemDesc costStr costVal =
        Except.ok out → PayInv out) ∧
    (∀ eid out, deleteExpense expenses eid = Except.ok out → PayInv out) ∧
    (∀ username now uuid out,
      markPaidPerson expenses username now uuid = Except.ok out → PayInv out) ∧
    (∀ eid now uuid out,
      markPaidItem expenses eid now uuid = Except.ok out → PayInv out) ∧
    (∀ eid now uuid out,
      togglePaid expenses eid now uuid = Except.ok out → PayInv out) := by
  refine ⟨?_, ?_, ?_, ?_, ?_, ?_⟩
  · intro person itemDesc costStr costVal freshId now out h
    rcases costVal with _ | c
    · cases h
    · simp only [addExpense] at h
      split at h
      · cases h
      · cases h
        intro x hx
        rcases List.mem_append.mp hx with hx | hx
        · exact hinv x hx
        · rcases List.mem_singleton.mp hx with rfl
          rfl
  · intro eid person itemDesc costStr costVal out h
    rcases costVal with _ | c
    · cases h
    · simp only [updateExpense] at h
      split at h
      · cases h
      · exact editAt_payInv eid person itemDesc c expenses out hinv h
  · intro eid out h
    simp only [deleteExpense] at h
    split at h
    · cases h
    · cases h
      intro x hx
      exact hinv x (List.mem_of_mem_filter hx)
  · intro username now uuid out h
    simp only [markPaidPerson] at h
    split at h
    · cases h
    · cases h
      intro x hx
      rcases List.mem_append.mp hx with hx | hx
      · exact hinv x (List.mem_of_mem_filter hx)
      · rcases List.mem_map.mp hx with ⟨pe, _, rfl⟩
        rfl
  · intro eid now uuid out h
    exact markPaidItem_payInv eid now uuid expenses out hinv h
  · intro eid now uuid out h
    exact togglePaid_payInv eid now uuid expenses out hinv h

/-- C9 witness: toggling the paid record of a one-record store yields a
store still satisfying the invariant. -/
theorem C9_operations_preserve_payment_invariant_witness :
    PayInv [⟨"i3", "B", "z", 4, Status.unpaid, 1, none, none⟩] := by
  exact (C9_operations_preserve_payment_invariant
      [⟨"i3", "B", "z", 4, Status.paid, 1, some 9, some "batch-q"⟩]
      (by unfold PayInv; decide)).2.2.2.2.2 "i3" 50 "u"
      [⟨"i3", "B", "z", 4, Status.unpaid, 1, none, none⟩] (by rfl)

/-- Effect of inserting one record into a person group (`some` case: the
record is pushed and its cost added; `none` case: a fresh group). -/
def groupAppend (o : Option PersonGroup) (e : Expense) : PersonGroup :=
  match o with
  | some g => ⟨g.items ++ [e], g.total + e.cost⟩
  | none => ⟨[e], e.cost⟩

/-- The group the report loop builds for person `p` out of the records of
`l` with that person (in order), or `none` when there are none. -/
def groupOf (p : String) (l : List Expense) : Option PersonGroup :=
  match l.filter fun e => decide (e.person = p) with
  | [] => none
  | f => some ⟨f, sumCosts f⟩

/-- Extending an existing lookup result by the records of `l` with person
`p`. -/
def groupExtend (o : Option PersonGroup) (p : String) (l : List Expense) :
    Option PersonGroup :=
  match o with
  | some g => some ⟨g.items ++ l.filter fun e => decide (e.person = p),
      g.total + sumCosts (l.filter fun e => decide (e.person = p))⟩
  | none => groupOf p l

theorem sumCosts_nil : sumCosts [] = 0 := rfl

theorem sumCosts_cons (e : Expense) (l : List Expense) :
    sumCosts (e :: l) = e.cost + sumCosts l := by
  simp [sumCosts]

/-- One `forEach` step of the report loop, seen through the lookup: only the
group of the record's person changes, and it changes by `groupAppend`. -/
theorem findGroup_reportInsert (p : String) (e : Expense) :
    ∀ acc, findGroup p (reportInsert acc e) =
      if e.person = p then some (groupAppend (findGroup p acc) e)
      else findGroup p acc
  | [] => by
    by_cases hp : e.person = p <;> simp [reportInsert, findGroup, groupAppend, hp]
  | (q, g) :: rest => by
    have ih := findGroup_reportInsert p e rest
    by_cases h1 : q = e.person
    · subst h1
      by_cases hp : e.person = p
      · subst hp
        simp [reportInsert, findGroup, groupAppend]
      · simp [reportInsert, findGroup, hp]
    · by_cases hq : q = p
      · subst hq
        have hp2 : ¬ e.person = q := fun hc => h1 hc.symm
        simp [reportInsert, findGroup, groupAppend, h1, hp2]
      · by_cases hp : e.person = p <;>
          simp [reportInsert, findGroup, groupAppend, h1, hq, hp, ih]

theorem groupExtend_nil (o : Option PersonGroup) (p : String) :
    groupExtend o p [] = o := by
  cases o <;> simp [groupExtend, groupOf, sumCosts]

/-- The whole report loop, seen through the lookup: the group of `p` ends up
holding exactly the records of the traversed list whose person is `p`, in
order, with their cost sum. -/
theorem findGroup_foldl (p : String) :
    ∀ (l : List Expense) (acc : List (String × PersonGroup)),
      findGroup p (l.foldl reportInsert acc) = groupExtend (findGroup p acc) p l
  | [], acc => by simp [groupExtend_nil]
  | e :: l, acc => by
    have ih := findGroup_foldl p l (reportInsert acc e)
    rw [List.foldl_cons, ih, findGroup_reportInsert]
    by_cases hp : e.person = p
    · rw [if_pos hp]
      cases hacc : findGroup p acc with
      | none =>
        simp only [groupAppend, groupExtend, groupOf, hp, List.filter_cons,
          decide_eq_true_eq, if_pos hp]
        cases hfl : l.filter fun x => decide (x.person = p) with
        | nil => simp [sumCosts]
        | cons a f => simp [sumCosts_cons]
      | some g =>
        simp only [groupAppend, groupExtend, hp, List.filter_cons,
          decide_eq_true_eq, if_pos hp]
        simp [sumCosts_cons, add_assoc]
    · rw [if_neg hp]
      cases hacc : findGroup p acc with
      | none =>
        simp only [groupExtend, groupOf, List.filter_cons, decide_eq_true_eq,
          if_neg hp]
      | some g =>
        simp only [groupExtend, List.filter_cons, decide_eq_true_eq, if_neg hp]

/-- The per-group sorting pass commutes with the lookup. -/
theorem findGroup_map_sort (p : String) :
    ∀ l : List (String × PersonGroup),
      findGroup p (l.map fun pg =>
          (pg.1, (⟨sortByAdded pg.2.items, pg.2.total⟩ : PersonGroup))) =
        Option.map (fun g => (⟨sortByAdded g.items, g.total⟩ : PersonGroup))
          (findGroup p l)
  | [] => rfl
  | (q, g) :: rest => by
    by_cases hq : q = p <;> simp [findGroup, hq, findGroup_map_sort p rest]

/-- Filtering by unpaid status and then by person equals one filter by the
conjunction. -/
theorem filter_unpaid_person (expenses : List Expense) (p : String) :
    (expenses.filter fun e => decide (e.status = Status.unpaid)).filter
        (fun e => decide (e.person = p)) =
      expenses.filter fun e => decide (e.status = Status.unpaid ∧ e.person = p) := by
  induction expenses with
  | nil => rfl
  | cons e rest ih =>
    by_cases h1 : e.status = Status.unpaid <;> by_cases h2 : e.person = p <;>
      simp [List.filter_cons, h1, h2, ih]

/-- C3: the unpaid report maps a person to a group exactly when that person
has at least one unpaid record; the group's items are exactly that person's
unpaid records, ordered ascending by `addedTimestamp` with original
insertion order as tie-break (`sortByAdded` is the stable ascending sort of
the insertion-ordered filter), and the group's total is the arithmetic sum
of those records' costs. -/
theorem C3_report_groups (expenses : List Expense) (p : String) :
    (findGroup p (report expenses) = none ↔
      expenses.filter (fun e => decide (e.status = Status.unpaid ∧ e.person = p)) = []) ∧
    (∀ g, findGroup p (report expenses) = some g →
      g.items = sortByAdded (expenses.filter fun e =>
        decide (e.status = Status.unpaid ∧ e.person = p)) ∧
      g.total = sumCosts (expenses.filter fun e =>
        decide (e.status = Status.unpaid ∧ e.person = p)) ∧
      g.items.Sorted byAdded) := by
  have hmap := findGroup_map_sort p (reportRaw expenses)
  have hraw : findGroup p (reportRaw expenses) =
      groupOf p (expenses.filter fun e => decide (e.status = Status.unpaid)) := by
    rw [reportRaw, findGroup_foldl]
    rfl
  have hrep : findGroup p (report expenses) =
      Option.map (fun g => (⟨sortByAdded g.items, g.total⟩ : PersonGroup))
        (groupOf p (expenses.filter fun e => decide (e.status = Status.unpaid))) := by
    rw [report, hmap, hraw]
  rw [hrep]
  simp only [groupOf, filter_unpaid_person]
  cases hfl : expenses.filter (fun e =>
      decide (e.status = Status.unpaid ∧ e.person = p)) with
  | nil =>
    refine ⟨by simp, fun g hg => by simp at hg⟩
  | cons a f =>
    refine ⟨by simp, fun g hg => ?_⟩
    simp only [Option.map_some] at hg
    cases hg
    exact ⟨rfl, rfl, List.sorted_insertionSort byAdded (a :: f)⟩

/-- C3 witness: person "A" has two unpaid records (added at times 5 and 3)
and one paid record; the report group for "A" lists them ascending by add
time with total 3. -/
theorem C3_report_groups_witness :
    ([⟨"i2", "A", "y", 2, Status.unpaid, 3, none, none⟩,
      ⟨"i1", "A", "x", 1, Status.unpaid, 5, none, none⟩] : List Expense) =
      sortByAdded
        (([⟨"i1", "A", "x", 1, Status.unpaid, 5, none, none⟩,
           ⟨"i3", "B", "z", 4, Status.paid, 1, some 9, some "batch-q"⟩,
           ⟨"i2", "A", "y", 2, Status.unpaid, 3, none, none⟩] : List Expense).filter
          fun e => decide (e.status = Status.unpaid ∧ e.person = "A")) ∧
    (1 : Rat) + 2 =
      sumCosts
        (([⟨"i1", "A", "x", 1, Status.unpaid, 5, none, none⟩,
           ⟨"i3", "B", "z", 4, Status.paid, 1, some 9, some "batch-q"⟩,
           ⟨"i2", "A", "y", 2, Status.unpaid, 3, none, none⟩] : List Expense).filter
          fun e => decide (e.status = Status.unpaid ∧ e.person = "A")) ∧
    ([⟨"i2", "A", "y", 2, Status.unpaid, 3, none, none⟩,
      ⟨"i1", "A", "x", 1, Status.unpaid, 5, none, none⟩] : List Expense).Sorted byAdded := by
  exact (C3_report_groups
    [⟨"i1", "A", "x", 1, Status.unpaid, 5, none, none⟩,
     ⟨"i3", "B", "z", 4, Status.paid, 1, some 9, some "batch-q"⟩,
     ⟨"i2", "A", "y", 2, Status.unpaid, 3, none, none⟩] "A").2
    ⟨[⟨"i2", "A", "y", 2, Status.unpaid, 3, none, none⟩,
      ⟨"i1", "A", "x", 1, Status.unpaid, 5, none, none⟩], (1 : Rat) + 2⟩ (by rfl)

/-- Effect of inserting one record into a batch entry (`some` case: pushed
and cost added; `none` case: a fresh entry adopting the record's person and
paid timestamp). -/
def batchAppend (o : Option BatchEntry) (q : String) (e : Expense) : BatchEntry :=
  match o with
  | some b => { b with items := b.items ++ [e], total := b.total + e.cost }
  | none => ⟨e.person, e.paidTimestamp, q, [e], e.cost⟩

/-- The entry the history loop builds for batch id `q` out of the records
of `l` carrying that batch id (in order), or `none` when there are none. -/
def batchOf (q : String) (l : List Expense) : Option BatchEntry :=
  match l.filter fun e => decide (e.paidBatchId = some q) with
  | [] => none
  | e :: f => some ⟨e.person, e.paidTimestamp, q, e :: f, sumCosts (e :: f)⟩

/-- Extending an existing lookup result by the records of `l` carrying batch
id `q`. -/
def batchExtend (o : Option BatchEntry) (q : String) (l : List Expense) :
    Option BatchEntry :=
  match o with
  | some b => some { b with
      items := b.items ++ l.filter fun e => decide (e.paidBatchId = some q),
      total := b.total + sumCosts (l.filter fun e => decide (e.paidBatchId = some q)) }
  | none => batchOf q l

/-- The batch ids of the history entries, in entry order. -/
def batchKeys (l : List BatchEntry) : List String :=
  l.map BatchEntry.batchId

/-- One insertion into `historyBatches`, seen through the lookup. -/
theorem findBatch_historyInsert (q bid : String) (e : Expense) :
    ∀ acc, findBatch q (historyInsert acc bid e) =
      if bid = q then some (batchAppend (findBatch q acc) q e)
      else findBatch q acc
  | [] => by
    by_cases hq : bid = q
    · subst hq
      simp [historyInsert, findBatch, batchAppend]
    · simp [historyInsert, findBatch, hq]
  | b :: rest => by
    have ih := findBatch_historyInsert q bid e rest
    by_cases hq : bid = q
    · subst hq
      simp only [if_pos rfl] at ih ⊢
      by_cases hb : b.batchId = bid
      · simp [historyInsert, findBatch, hb, batchAppend]
      · simp [historyInsert, findBatch, hb, ih]
    · simp only [if_neg hq] at ih ⊢
      have hq2 : ¬ q = bid := fun hc => hq hc.symm
      by_cases hb : b.batchId = bid
      · have hbq : ¬ b.batchId = q := fun hc => hq (hb.symm.trans hc)
        simp [historyInsert, findBatch, hb, hbq, hq, hq2]
      · by_cases hbq : b.batchId = q <;>
          simp [historyInsert, findBatch, hb, hbq, hq, hq2, ih]

theorem batchExtend_nil (o : Option BatchEntry) (q : String) :
    batchExtend o q [] = o := by
  cases o <;> simp [batchExtend, batchOf, sumCosts]

/-- The whole history loop, seen through the lookup: the entry of `q` ends
up holding exactly the traversed records carrying batch id `q`, in order,
with their cost sum, adopting the first such record's person and paid
timestamp. -/
theorem findBatch_foldl (q : String) :
    ∀ (l : List Expense) (acc : List BatchEntry),
      findBatch q (l.foldl historyStep acc) = batchExtend (findBatch q acc) q l
  | [], acc => by simp [batchExtend_nil]
  | e :: l, acc => by
    have ih := findBatch_foldl q l (historyStep acc e)
    rw [List.foldl_cons, ih]
    cases hpb : e.paidBatchId with
    | none =>
      have hstep : historyStep acc e = acc := by simp [historyStep, hpb]
      rw [hstep]
      have hfl : decide (e.paidBatchId = some q) = false := by simp [hpb]
      cases hacc : findBatch q acc with
      | none => simp [hacc, batchExtend, batchOf, List.filter_cons, hfl]
      | some b => simp [hacc, batchExtend, List.filter_cons, hfl]
    | some bid =>
      have hstep : historyStep acc e = historyInsert acc bid e := by
        simp [historyStep, hpb]
      rw [hstep, findBatch_historyInsert]
      by_cases hq : bid = q
      · subst hq
        have hfl : decide (e.paidBatchId = some bid) = true := by simp [hpb]
        rw [if_pos rfl]
        cases hacc : findBatch bid acc with
        | none =>
          simp [hacc, batchAppend, batchExtend, batchOf, List.filter_cons, hfl,
            sumCosts_cons]
        | some b =>
          simp [hacc, batchAppend, batchExtend, List.filter_cons, hfl,
            sumCosts_cons, add_assoc]
      · have hfl : decide (e.paidBatchId = some q) = false := by simp [hpb, hq]
        rw [if_neg hq]
        cases hacc : findBatch q acc with
        | none => simp [hacc, batchExtend, batchOf, List.filter_cons, hfl]
        | some b => simp [hacc, batchExtend, List.filter_cons, hfl]

/-- A lookup misses exactly when no entry carries the key. -/
theorem findBatch_eq_none_iff (q : String) :
    ∀ l : List BatchEntry, findBatch q l = none ↔ ∀ b ∈ l, b.batchId ≠ q
  | [] => by simp [findBatch]
  | b :: rest => by
    by_cases hb : b.batchId = q
    · simp [findBatch, hb]
    · simp [findBatch, hb, findBatch_eq_none_iff q rest]

/-- A lookup hit is an entry of the list carrying the key. -/
theorem findBatch_mem (q : String) :
    ∀ l : List BatchEntry, ∀ b, findBatch q l = some b → b ∈ l ∧ b.batchId = q
  | [], b => by simp [findBatch]
  | x :: rest, b => by
    by_cases hx : x.batchId = q
    · intro h
      simp only [findBatch, if_pos hx] at h
      cases h
      exact ⟨by simp, hx⟩
    · intro h
      simp only [findBatch, if_neg hx] at h
      rcases findBatch_mem q rest b h with ⟨hm, hk⟩
      exact ⟨by simp [hm], hk⟩

/-- With distinct keys, every entry is what its own key looks up to. -/
theorem findBatch_of_mem :
    ∀ l : List BatchEntry, (batchKeys l).Nodup → ∀ b ∈ l,
      findBatch b.batchId l = some b
  | [], _, b => by simp
  | x :: rest, hnd, b => by
    intro hb
    have hnd2 : (batchKeys rest).Nodup := (List.nodup_cons.mp hnd).2
    have hx : x.batchId ∉ batchKeys rest := (List.nodup_cons.mp hnd).1
    rcases List.mem_cons.mp hb with hb | hb
    · subst hb
      simp [findBatch]
    · have hne : ¬ x.batchId = b.batchId := by
        intro hc
        exact hx (hc ▸ (List.mem_map.mpr ⟨b, hb, rfl⟩))
      simp only [findBatch, if_neg hne]
      exact findBatch_of_mem rest hnd2 b hb

/-- Inserting a record either leaves the key list unchanged or appends the
new key at the end. -/
theorem batchKeys_historyInsert (bid : String) (e : Expense) :
    ∀ acc, batchKeys (historyInsert acc bid e) =
      if bid ∈ batchKeys acc then batchKeys acc else batchKeys acc ++ [bid]
  | [] => by simp [historyInsert, batchKeys]
  | b :: rest => by
    have ih := batchKeys_historyInsert bid e rest
    by_cases hb : b.batchId = bid
    · have hmem : bid ∈ batchKeys (b :: rest) := List.mem_cons.mpr (Or.inl hb.symm)
      rw [if_pos hmem]
      simp [historyInsert, batchKeys, hb]
    · by_cases hmem : bid ∈ batchKeys rest
      · have hmem2 : bid ∈ batchKeys (b :: rest) := List.mem_cons_of_mem _ hmem
        rw [if_pos hmem2, if_pos hmem] at *
        rw [show historyInsert (b :: rest) bid e = b :: historyInsert rest bid e by
          simp [historyInsert, hb]]
        simpa [batchKeys] using ih
      · have hmem2 : bid ∉ batchKeys (b :: rest) := by
          intro hc
          rcases List.mem_cons.mp hc with hc | hc
          · exact hb hc.symm
          · exact hmem hc
        rw [if_neg hmem2]
        rw [if_neg hmem] at ih
        rw [show historyInsert (b :: rest) bid e = b :: historyInsert rest bid e by
          simp [historyInsert, hb]]
        simpa [batchKeys] using ih

/-- The history loop never creates two entries with the same batch id. -/
theorem nodup_batchKeys_foldl :
    ∀ (l : List Expense) (acc : List BatchEntry), (batchKeys acc).Nodup →
      (batchKeys (l.foldl historyStep acc)).Nodup
  | [], _, h => h
  | e :: l, acc, h => by
    rw [List.foldl_cons]
    apply nodup_batchKeys_foldl l
    cases hpb : e.paidBatchId with
    | none => simpa [historyStep, hpb] using h
    | some bid =>
      have hstep : historyStep acc e = historyInsert acc bid e := by
        simp [historyStep, hpb]
      rw [hstep, batchKeys_historyInsert]
      by_cases hmem : bid ∈ batchKeys acc
      · simpa [hmem] using h
      · simp only [if_neg hmem]
        simp [List.nodup_append, h, hmem]

/-- Filtering by paid status and then by batch id equals one filter by the
conjunction. -/
theorem filter_paid_batch (expenses : List Expense) (bid : String) :
    (expenses.filter fun e => decide (e.status = Status.paid)).filter
        (fun e => decide (e.paidBatchId = some bid)) =
      expenses.filter fun e =>
        decide (e.status = Status.paid ∧ e.paidBatchId = some bid) := by
  induction expenses with
  | nil => rfl
  | cons e rest ih =>
    by_cases h1 : e.status = Status.paid <;>
      by_cases h2 : e.paidBatchId = some bid <;>
      simp [List.filter_cons, h1, h2, ih]

/-- C4: the history view has one entry per distinct `paidBatchId` among the
records with status paid and a non-null batch id (paid records with a null
batch id are silently excluded: every entry's records carry a batch id);
entries are ordered descending by their payment timestamp, the records
within an entry are exactly the records of its batch id, ordered ascending
by `addedTimestamp`, and the entry's total is the sum of those records'
costs.  The hypothesis is the §3 data-model invariant (payment fields both
null or both non-null), under which every entry carries a non-null
timestamp and the descending comparator reads exactly the entries'
`paidTimestamp`s. -/
theorem C4_history_batches (expenses : List Expense) (hinv : PayInv expenses) :
    (batchKeys (history expenses)).Nodup ∧
    (∀ bid : String,
      (∃ b ∈ history expenses, b.batchId = bid) ↔
      ∃ e ∈ expenses, e.status = Status.paid ∧ e.paidBatchId = some bid) ∧
    (∀ b ∈ history expenses,
      b.items = sortByAdded (expenses.filter fun e =>
        decide (e.status = Status.paid ∧ e.paidBatchId = some b.batchId)) ∧
      b.total = sumCosts (expenses.filter fun e =>
        decide (e.status = Status.paid ∧ e.paidBatchId = some b.batchId)) ∧
      b.timestamp.isSome = true ∧
      b.items.Sorted byAdded) ∧
    (history expenses).Sorted descTs := by
  have hperm : List.Perm ((historyRaw expenses).insertionSort descTs)
      (historyRaw expenses) :=
    List.perm_insertionSort descTs (historyRaw expenses)
  have hnd : (batchKeys (historyRaw expenses)).Nodup := by
    rw [historyRaw]
    exact nodup_batchKeys_foldl _ [] (by simp [batchKeys])
  have hfb : ∀ bid, findBatch bid (historyRaw expenses) =
      batchOf bid (expenses.filter fun e => decide (e.status = Status.paid)) := by
    intro bid
    rw [historyRaw, findBatch_foldl]
    rfl
  have batchOf_eq : ∀ bid, batchOf bid (expenses.filter fun e =>
      decide (e.status = Status.paid)) =
      (match expenses.filter (fun e =>
          decide (e.status = Status.paid ∧ e.paidBatchId = some bid)) with
        | [] => none
        | a :: f => some ⟨a.person, a.paidTimestamp, bid, a :: f, sumCosts (a :: f)⟩) := by
    intro bid
    simp only [batchOf]
    rw [filter_paid_batch]
  refine ⟨?_, ?_, ?_, ?_⟩
  · have hkeys : batchKeys (history expenses) =
        batchKeys ((historyRaw expenses).insertionSort descTs) := by
      rw [history, batchKeys, batchKeys, List.map_map]
      rfl
    rw [hkeys]
    exact ((hperm.map BatchEntry.batchId).nodup_iff).mpr hnd
  · intro bid
    constructor
    · rintro ⟨b, hb, rfl⟩
      rw [history] at hb
      rcases List.mem_map.mp hb with ⟨b0, hb0s, rfl⟩
      have hb0raw : b0 ∈ historyRaw expenses := hperm.mem_iff.mp hb0s
      have hfb0 : findBatch b0.batchId (historyRaw expenses) = some b0 :=
        findBatch_of_mem _ hnd b0 hb0raw
      cases hfl : expenses.filter (fun e =>
          decide (e.status = Status.paid ∧ e.paidBatchId = some b0.batchId)) with
      | nil =>
        have h2 : findBatch b0.batchId (historyRaw expenses) = none := by
          rw [hfb, batchOf_eq, hfl]
        rw [h2] at hfb0
        cases hfb0
      | cons a f =>
        have ha : a ∈ expenses.filter (fun e =>
            decide (e.status = Status.paid ∧ e.paidBatchId = some b0.batchId)) := by
          rw [hfl]
          exact List.mem_cons_self a f
        rcases List.mem_filter.mp ha with ⟨hae, hprop⟩
        simp only [decide_eq_true_eq] at hprop
        exact ⟨a, hae, hprop.1, hprop.2⟩
    · rintro ⟨e, he, hpaid, hpbid⟩
      have hsome : e ∈ expenses.filter (fun x =>
          decide (x.status = Status.paid ∧ x.paidBatchId = some bid)) :=
        List.mem_filter.mpr ⟨he, by simp [hpaid, hpbid]⟩
      cases hfl : expenses.filter (fun x =>
          decide (x.status = Status.paid ∧ x.paidBatchId = some bid)) with
      | nil =>
        rw [hfl] at hsome
        cases hsome
      | cons a f =>
        have h2 : findBatch bid (historyRaw expenses) =
            some ⟨a.person, a.paidTimestamp, bid, a :: f, sumCosts (a :: f)⟩ := by
          rw [hfb, batchOf_eq, hfl]
        rcases findBatch_mem bid _ _ h2 with ⟨hmemraw, hkey⟩
        refine ⟨sortEntryItems
          ⟨a.person, a.paidTimestamp, bid, a :: f, sumCosts (a :: f)⟩, ?_, ?_⟩
        · rw [history]
          exact List.mem_map_of_mem _ (hperm.mem_iff.mpr hmemraw)
        · exact hkey
  · intro b hb
    rw [history] at hb
    rcases List.mem_map.mp hb with ⟨b0, hb0s, rfl⟩
    have hb0raw : b0 ∈ historyRaw expenses := hperm.mem_iff.mp hb0s
    have hfb0 : findBatch b0.batchId (historyRaw expenses) = some b0 :=
      findBatch_of_mem _ hnd b0 hb0raw
    cases hfl : expenses.filter (fun e =>
        decide (e.status = Status.paid ∧ e.paidBatchId = some b0.batchId)) with
    | nil =>
      have h2 : findBatch b0.batchId (historyRaw expenses) = none := by
        rw [hfb, batchOf_eq, hfl]
      rw [h2] at hfb0
      cases hfb0
    | cons a f =>
      have h2 : findBatch b0.batchId (historyRaw expenses) =
          some ⟨a.person, a.paidTimestamp, b0.batchId, a :: f, sumCosts (a :: f)⟩ := by
        rw [hfb, batchOf_eq, hfl]
      rw [h2] at hfb0
      have hb0 : (⟨a.person, a.paidTimestamp, b0.batchId, a :: f,
          sumCosts (a :: f)⟩ : BatchEntry) = b0 := Option.some.inj hfb0
      have hitems : b0.items = a :: f := by rw [← hb0]
      have htotal : b0.total = sumCosts (a :: f) := by rw [← hb0]
      have hts : b0.timestamp = a.paidTimestamp := by rw [← hb0]
      have ha : a ∈ expenses.filter (fun e =>
          decide (e.status = Status.paid ∧ e.paidBatchId = some b0.batchId)) := by
        rw [hfl]
        exact List.mem_cons_self a f
      rcases List.mem_filter.mp ha with ⟨hae, hprop⟩
      simp only [decide_eq_true_eq] at hprop
      refine ⟨?_, ?_, ?_, ?_⟩
      · show sortByAdded b0.items = sortByAdded (expenses.filter fun e =>
          decide (e.status = Status.paid ∧ e.paidBatchId = some b0.batchId))
        rw [hitems, hfl]
      · show b0.total = sumCosts (expenses.filter fun e =>
          decide (e.status = Status.paid ∧ e.paidBatchId = some b0.batchId))
        rw [htotal, hfl]
      · show b0.timestamp.isSome = true
        have hsome := hinv a hae
        rw [hprop.2] at hsome
        rw [hts]
        simpa using hsome
      · show (sortByAdded b0.items).Sorted byAdded
        exact List.sorted_insertionSort byAdded b0.items
  · rw [history]
    exact List.pairwise_map.mpr
      ((List.sorted_insertionSort descTs (historyRaw expenses)).imp fun h => h)

/-- C4 witness: a store with one paid batched record satisfies the
invariant; its history has distinct keys, contains an entry for the batch,
and is sorted. -/
theorem C4_history_batches_witness :
    (batchKeys (history
      [⟨"i3", "B", "z", 4, Status.paid, 1, some 9, some "batch-q"⟩])).Nodup ∧
    (∃ b ∈ history [⟨"i3", "B", "z", 4, Status.paid, 1, some 9, some "batch-q"⟩],
      b.batchId = "batch-q") ∧
    (history [⟨"i3", "B", "z", 4, Status.paid, 1, some 9, some "batch-q"⟩]).Sorted
      descTs := by
  refine ⟨(C4_history_batches
      [⟨"i3", "B", "z", 4, Status.paid, 1, some 9, some "batch-q"⟩]
      (by unfold PayInv; decide)).1,
    ((C4_history_batches
      [⟨"i3", "B", "z", 4, Status.paid, 1, some 9, some "batch-q"⟩]
      (by unfold PayInv; decide)).2.1 "batch-q").mpr
      ⟨⟨"i3", "B", "z", 4, Status.paid, 1, some 9, some "batch-q"⟩,
        by simp, rfl, rfl⟩,
    (C4_history_batches
      [⟨"i3", "B", "z", 4, Status.paid, 1, some 9, some "batch-q"⟩]
      (by unfold PayInv; decide)).2.2.2⟩

/-- C7 witness: person "A" has only a paid record in the store. -/
theorem C7_pay_by_person_empty_selection_witness :
    markPaidPerson [⟨"i3", "A", "z", 4, Status.paid, 1, some 9, some "batch-q"⟩]
        "A" (fun _ => 0) (fun _ => "u") = Except.error ActionError.notFound ∧
    applyMarkPaidPerson [⟨"i3", "A", "z", 4, Status.paid, 1, some 9, some "batch-q"⟩]
        "A" (fun _ => 0) (fun _ => "u") =
      [⟨"i3", "A", "z", 4, Status.paid, 1, some 9, some "batch-q"⟩] := by
  exact C7_pay_by_person_empty_selection _ _ _ _ (by decide)

end CostSplitting
